import Mathlib

/-!
# Verification of the rvspecfit preprocessing / interpolation core

Shallow embedding of the numerical core of `rvspecfit`:
* `spec_inter.py` — `TriInterp`, `GridOutsideCheck`, `GridInterp`
* `make_ccf.py` — `CCFConfig`, `apodize`, `pad`, `interp_masker`

Rational numbers stand in for the exact real arithmetic the numpy code
performs; `Real.exp` / `Real.cos` / `Real.log` model `np.exp` / `np.cos` /
`np.log` where a definition genuinely needs transcendental functions.
-/

/-! ## Generic list helpers -/

/-- Reassembling a list from positional `getD` reads. -/
theorem list_eq_range_map {α : Type} (l : List α) (d : α) :
    (List.range l.length).map (fun i => l.getD i d) = l := by
  induction l with
  | nil => simp
  | cons a t ih =>
    simp only [List.length_cons, List.range_succ_eq_map, List.map_cons, List.map_map]
    refine congrArg₂ _ (by simp) ?_
    rw [show ((fun i => (a :: t).getD i d) ∘ Nat.succ) = fun i => t.getD i d from ?_]
    · exact ih
    · funext i
      simp [List.getD_cons_succ]

/-- `getD` of a map over `List.range` below the bound. -/
theorem getD_range_map {α : Type} (f : ℕ → α) {n i : ℕ} (h : i < n) (d : α) :
    ((List.range n).map f).getD i d = f i := by
  rw [List.getD_eq_getElem _ _ (by simpa using h)]
  simp

/-! ## np.digitize and the bin position shared by both grid classes -/

/-- `np.digitize(v, bins)` for increasing `bins` (`right=False`): the number
of bin edges that are `≤ v`. -/
def digitize (v : ℚ) (bins : List ℚ) : ℤ :=
  ((bins.filter fun b => b ≤ v).length : ℤ)

/-- `[np.digitize(p[i], self.uvecs[i]) - 1 for i in range(self.ndim)]`,
computed identically in `GridInterp.__call__` and
`GridOutsideCheck.__call__`. -/
def binposOf (uvecs : List (List ℚ)) (p : List ℚ) : List ℤ :=
  (List.range uvecs.length).map fun i => digitize (p.getD i 0) (uvecs.getD i []) - 1

/-- For a strictly sorted list, the prefix of elements `≤ l[i]` has length
`i + 1`. -/
theorem sorted_filter_le_length (l : List ℚ) (i : ℕ)
    (hs : List.Sorted (· < ·) l) (hi : i < l.length) :
    (l.filter fun b => b ≤ l.getD i 0).length = i + 1 := by
  induction l generalizing i with
  | nil => simp at hi
  | cons a t ih =>
    rw [List.sorted_cons] at hs
    cases i with
    | zero =>
      simp only [List.getD_cons_zero, List.filter_cons]
      have ha : decide (a ≤ a) = true := by simp
      rw [ha]
      have ht : t.filter (fun b => b ≤ a) = [] := by
        refine List.filter_eq_nil_iff.mpr ?_
        intro b hb
        simp only [decide_eq_true_eq, not_le]
        exact hs.1 b hb
      simp [ht]
    | succ j =>
      simp only [List.getD_cons_succ]
      have hj : j < t.length := by simpa using hi
      have hmem : t.getD j 0 ∈ t := by
        rw [List.getD_eq_getElem _ _ hj]
        exact List.getElem_mem _
      have ha : decide (a ≤ t.getD j 0) = true := by
        simp only [decide_eq_true_eq]
        exact le_of_lt (hs.1 _ hmem)
      simp only [List.filter_cons, ha, if_true, List.length_cons]
      rw [ih j hs.2 hj]

theorem digitize_at_vertex (l : List ℚ) (i : ℕ)
    (hs : List.Sorted (· < ·) l) (hi : i < l.length) :
    digitize (l.getD i 0) l = (i : ℤ) + 1 := by
  unfold digitize
  rw [sorted_filter_le_length l i hs hi]
  push_cast
  ring

/-! ## The 2^N hypercube corners (`itertools.product(*[[0,1]]*ndim)`) -/

/-- `self.edges`: the list of 0/1 vectors of length `n`, in the order
produced by `itertools.product`. -/
def edges : ℕ → List (List ℕ)
  | 0 => [[]]
  | n + 1 => ((edges n).map fun e => 0 :: e) ++ ((edges n).map fun e => 1 :: e)

theorem edges_mem_facts {n : ℕ} {e : List ℕ} (he : e ∈ edges n) :
    e.length = n ∧ ∀ b ∈ e, b = 0 ∨ b = 1 := by
  induction n generalizing e with
  | zero =>
    simp only [edges, List.mem_singleton] at he
    subst he
    simp
  | succ m ih =>
    simp only [edges, List.mem_append, List.mem_map] at he
    rcases he with ⟨e', he', rfl⟩ | ⟨e', he', rfl⟩ <;>
      rcases ih he' with ⟨hl, hb⟩ <;>
      refine ⟨by simp [hl], ?_⟩ <;>
      intro b hb' <;> rcases List.mem_cons.mp hb' with rfl | hmem
    · left; rfl
    · exact hb b hmem
    · right; rfl
    · exact hb b hmem

/-- The all-zeros corner heads the corner list and occurs there exactly
once. -/
theorem edges_zero_head (n : ℕ) :
    ∃ es, edges n = List.replicate n 0 :: es ∧ ∀ e ∈ es, e ≠ List.replicate n 0 := by
  induction n with
  | zero => exact ⟨[], rfl, by simp⟩
  | succ m ih =>
    obtain ⟨es, hes, hne⟩ := ih
    refine ⟨(es.map fun e => 0 :: e) ++ ((edges m).map fun e => 1 :: e), ?_, ?_⟩
    · simp [edges, hes, List.replicate_succ]
    · intro e he
      simp only [List.mem_append, List.mem_map] at he
      rcases he with ⟨e', he', rfl⟩ | ⟨e', he', rfl⟩
      · simp only [List.replicate_succ, ne_eq, List.cons.injEq, true_and]
        exact hne e' he'
      · simp [List.replicate_succ]

/-! ## GridInterp (`spec_inter.py`, lines 70–125) -/

/-- Regular-grid interpolator state: per-dimension unique grid values
(`uvecs`), the N-D id grid (`-1` marks an absent template), the 2-D array
of stored spectra (`dats`, one row per template, all rows of equal
length), and the `exp` flag. The id grid is embedded as a function from
integer index tuples to template ids, mirroring the numpy N-D array. -/
structure GridInterp where
  uvecs : List (List ℚ)
  idgrid : List ℤ → ℤ
  dats : List (List ℚ)
  exp : Bool

def GridInterp.ndim (g : GridInterp) : ℕ := g.uvecs.length

/-- `self.lens = [len(_) for _ in self.uvecs]`. -/
def GridInterp.lens (g : GridInterp) : List ℕ := g.uvecs.map List.length

/-- `len(self.dats[0])`: the common row length of the spectrum array. -/
def GridInterp.specLen (g : GridInterp) : ℕ := (g.dats.getD 0 []).length

def GridInterp.binpos (g : GridInterp) (p : List ℚ) : List ℤ := binposOf g.uvecs p

/-- The out-of-bounds test of `GridInterp.__call__`:
`any([(pos[i] < 0) or (pos[i] >= self.lens[i] - 1) for i in range(ndim)])`. -/
def GridInterp.outOfBox (g : GridInterp) (p : List ℚ) : Bool :=
  (List.range g.ndim).any fun i =>
    decide ((g.binpos p).getD i 0 < 0) ||
      decide (((g.lens.getD i 0 : ℤ) - 1) ≤ (g.binpos p).getD i 0)

/-- The per-dimension fractional offsets
`(p[i] - uvecs[i][pos[i]]) / (uvecs[i][pos[i]+1] - uvecs[i][pos[i]])`. -/
def GridInterp.coeffs (g : GridInterp) (p : List ℚ) : List ℚ :=
  (List.range g.ndim).map fun i =>
    let u := g.uvecs.getD i []
    let k := ((g.binpos p).getD i 0).toNat
    (p.getD i 0 - u.getD k 0) / (u.getD (k + 1) 0 - u.getD k 0)

/-- One multilinear corner weight:
`np.prod(coeffs**curp * (1 - coeffs)**(1 - curp))`. -/
def binWeight (coeffs : List ℚ) (e : List ℕ) : ℚ :=
  ((coeffs.zip e).map fun ce => ce.1 ^ ce.2 * (1 - ce.1) ^ (1 - ce.2)).prod

/-- `pos2[i] = self.idgrid[tuple(curp + pos)]`. -/
def GridInterp.pos2 (g : GridInterp) (p : List ℚ) : List ℤ :=
  (edges g.ndim).map fun e =>
    g.idgrid (List.zipWith (fun (a : ℕ) (b : ℤ) => (a : ℤ) + b) e (g.binpos p))

/-- `GridInterp.__call__`. `expf` abstracts the elementwise `np.exp`
applied when `self.exp` is set (the real exponential is not
rational-computable; every theorem below holds for an arbitrary `expf`). -/
def GridInterp.call (expf : ℚ → ℚ) (g : GridInterp) (p : List ℚ) : List ℚ :=
  if g.outOfBox p then List.replicate g.specLen 1
  else
    let w := (edges g.ndim).map (binWeight (g.coeffs p))
    let ids := g.pos2 p
    if ids.any fun v => decide (v < 0) then List.replicate g.specLen 1
    else
      let rows := ids.map fun v => g.dats.getD v.toNat []
      let spec := (List.range g.specLen).map fun j =>
        ((w.zip rows).map fun wr => wr.1 * wr.2.getD j 0).sum
      if g.exp then spec.map expf else spec

/-! ## Partition of unity for the multilinear weights (claim C8) -/

theorem binWeight_cons (a : ℚ) (c : List ℚ) (b : ℕ) (e : List ℕ) :
    binWeight (a :: c) (b :: e) = a ^ b * (1 - a) ^ (1 - b) * binWeight c e := by
  simp [binWeight, List.zip_cons_cons]

theorem binWeights_sum_one (c : List ℚ) (n : ℕ) (hc : c.length = n) :
    ((edges n).map (binWeight c)).sum = 1 := by
  induction n generalizing c with
  | zero =>
    rw [List.length_eq_zero] at hc
    subst hc
    simp [edges, binWeight]
  | succ m ih =>
    cases c with
    | nil => simp at hc
    | cons a c' =>
      have hc' : c'.length = m := by simpa using hc
      simp only [edges, List.map_append, List.map_map, List.sum_append]
      have h0 : ((edges m).map (fun e => binWeight (a :: c') (0 :: e))).sum
          = (1 - a) * ((edges m).map (binWeight c')).sum := by
        rw [← List.sum_map_mul_left]
        refine congrArg _ (List.map_congr_left ?_)
        intro e _
        rw [binWeight_cons]
        ring
      have h1 : ((edges m).map (fun e => binWeight (a :: c') (1 :: e))).sum
          = a * ((edges m).map (binWeight c')).sum := by
        rw [← List.sum_map_mul_left]
        refine congrArg _ (List.map_congr_left ?_)
        intro e _
        rw [binWeight_cons]
        ring
      have hS := ih c' hc'
      calc ((edges m).map (fun e => binWeight (a :: c') (0 :: e))).sum
            + ((edges m).map (fun e => binWeight (a :: c') (1 :: e))).sum
          = (1 - a) * 1 + a * 1 := by rw [h0, h1, hS]
        _ = 1 := by ring

/-- C8: for every regular-grid interpolator and in-bounds query point whose
2^N surrounding corner templates are all present, the multilinear corner
weights computed by `GridInterp.__call__` sum exactly to 1. -/
theorem gridInterp_weights_sum_one (g : GridInterp) (p : List ℚ)
    (hp : p.length = g.ndim)
    (hin : g.outOfBox p = false)
    (hpres : ∀ v ∈ g.pos2 p, 0 ≤ v) :
    ((edges g.ndim).map (binWeight (g.coeffs p))).sum = 1 :=
  binWeights_sum_one _ _ (by simp [GridInterp.coeffs])

/-- 1-D grid on `[0,2]` with a single one-sample template everywhere. -/
def c8grid : GridInterp := ⟨[[0, 2]], fun _ => 0, [[1]], false⟩

theorem gridInterp_weights_sum_one_witness :
    ([(1 : ℚ)].length = c8grid.ndim ∧ c8grid.outOfBox [1] = false ∧
      (∀ v ∈ c8grid.pos2 [1], 0 ≤ v)) ∧
    ((edges c8grid.ndim).map (binWeight (c8grid.coeffs [1]))).sum = 1 :=
  ⟨⟨by decide, by decide, by decide⟩,
    gridInterp_weights_sum_one c8grid [1] (by decide) (by decide) (by decide)⟩

/-- A 0/1 corner vector as an integer index tuple. -/
def intsOf (k : List ℕ) : List ℤ := k.map fun a : ℕ => (a : ℤ)

/-! ## GridOutsideCheck (`spec_inter.py`, lines 53–68) -/

/-- `GridOutsideCheck` state: the same `uvecs` / `idgrid` data as
`GridInterp`. -/
structure GridOutsideCheck where
  uvecs : List (List ℚ)
  idgrid : List ℤ → ℤ

def GridOutsideCheck.ndim (c : GridOutsideCheck) : ℕ := c.uvecs.length

/-- `self.lens = np.array([len(_) for _ in self.uvecs])`. -/
def GridOutsideCheck.lens (c : GridOutsideCheck) : List ℕ := c.uvecs.map List.length

/-- `GridOutsideCheck.__call__`.  Note the second loop tests
`self.idgrid[tuple(curp)]` — the corners of the bin at index `(0,…,0)` —
and not `tuple(curp + pos)`; the model reproduces the source exactly. -/
def GridOutsideCheck.call (c : GridOutsideCheck) (p : List ℚ) : Bool :=
  let pos := binposOf c.uvecs p
  if (List.range c.ndim).any fun i =>
      decide (pos.getD i 0 < 0) ||
        decide (((c.lens.getD i 0 : ℤ) - 1) ≤ pos.getD i 0) then
    true
  else if (edges c.ndim).any fun e =>
      decide (c.idgrid (intsOf e) = -1) then
    true
  else
    false

/-- 1-D grid `[2,4,6]` whose last grid point (index 2) has no template. -/
def c2grid : GridOutsideCheck :=
  ⟨[[2, 4, 6]], fun t => if t = [2] then -1 else 0⟩

/-- C2: `GridOutsideCheck.__call__` does not look at the corners of the bin
containing `p`.  At `p = 5` the containing bin is `[4,6]` (bin position 1),
its right corner (grid index 2) is absent, yet the check returns `false`,
because the loop reads `idgrid[tuple(curp)]` — indices `{0,1}^N` — instead
of `idgrid[tuple(curp + pos)]`. -/
theorem gridOutsideCheck_ignores_adjacent_corners :
    c2grid.call [5] = false ∧
    binposOf c2grid.uvecs [5] = [1] ∧
    c2grid.idgrid [2] = -1 := by
  refine ⟨by decide, by decide, by decide⟩

/-! ## TriInterp (`spec_inter.py`, lines 9–51) -/

/-- `np.dot` of two equal-length vectors. -/
def dotList (a b : List ℚ) : ℚ := ((a.zip b).map fun q => q.1 * q.2).sum

/-- Result of `TriInterp.__call__`: either the scalar `np.nan` (returned
when no enclosing simplex exists) or a spectrum vector. -/
inductive TriResult where
  | nanScalar : TriResult
  | spec : List ℚ → TriResult

/-- Delaunay-triangulation interpolator state.  `findSimplex`,
`transform` and `simplices` embed the corresponding members of the
scipy `Delaunay` object (external library): `findSimplex p` is `-1`
exactly when `p` lies outside the convex hull; `transform xid` holds the
`ndim+1` rows of the affine transform (last row the offset);
`simplices xid` lists the vertex ids of simplex `xid`. -/
structure TriInterp where
  ndim : ℕ
  findSimplex : List ℚ → ℤ
  transform : ℤ → List (List ℚ)
  simplices : ℤ → List ℕ
  dats : List (List ℚ)
  exp : Bool

def TriInterp.specLen (t : TriInterp) : ℕ := (t.dats.getD 0 []).length

/-- `TriInterp.__call__`; `expf` abstracts the elementwise `np.exp`. -/
def TriInterp.call (expf : ℚ → ℚ) (t : TriInterp) (p : List ℚ) : TriResult :=
  let xid := t.findSimplex p
  if xid = -1 then TriResult.nanScalar
  else
    let tr := t.transform xid
    let offs := tr.getD t.ndim []
    let pm := List.zipWith (fun a b => a - b) p offs
    let b := (List.range t.ndim).map fun r => dotList (tr.getD r []) pm
    let b1 := b ++ [1 - b.sum]
    let verts := t.simplices xid
    let spec := (List.range t.specLen).map fun j =>
      ((b1.zip verts).map fun wv => wv.1 * (t.dats.getD wv.2 []).getD j 0).sum
    TriResult.spec (if t.exp then spec.map expf else spec)

/-- C4: out-of-domain queries take deterministic fallbacks — `np.nan` for
the triangulation variant (no enclosing simplex), and the flat unit
spectrum of the stored row length for the regular-grid variant (out of
bounds in some dimension, or some hypercube corner template absent). -/
theorem outside_queries_fall_back :
    (∀ (expf : ℚ → ℚ) (t : TriInterp) (p : List ℚ),
      t.findSimplex p = -1 → t.call expf p = TriResult.nanScalar) ∧
    (∀ (expf : ℚ → ℚ) (g : GridInterp) (p : List ℚ),
      g.outOfBox p = true ∨ (∃ v ∈ g.pos2 p, v < 0) →
        g.call expf p = List.replicate g.specLen 1) := by
  constructor
  · intro expf t p h
    simp only [TriInterp.call, h, if_pos]
  · intro expf g p h
    cases hout : g.outOfBox p with
    | true => simp only [GridInterp.call, hout, if_pos]
    | false =>
      rcases h with h | ⟨v, hv, hneg⟩
      · rw [hout] at h; cases h
      · have hany : ((g.pos2 p).any fun v => decide (v < 0)) = true := by
          rw [List.any_eq_true]
          exact ⟨v, hv, by simpa using hneg⟩
        simp only [GridInterp.call, hout, Bool.false_eq_true, if_false, hany, if_true]

/-- Triangulation instance whose point-location always fails, and a 1-D
grid instance queried below its range. -/
def c4tri : TriInterp := ⟨1, fun _ => -1, fun _ => [], fun _ => [], [[0]], true⟩

def c4grid : GridInterp := ⟨[[0, 1]], fun _ => 0, [[3, 4]], true⟩

theorem outside_queries_fall_back_witness :
    (c4tri.findSimplex [5] = -1 ∧ c4tri.call id [5] = TriResult.nanScalar) ∧
    (c4grid.outOfBox [-7] = true ∧
      c4grid.call id [-7] = List.replicate c4grid.specLen 1) :=
  ⟨⟨by decide, outside_queries_fall_back.1 id c4tri [5] (by decide)⟩,
    ⟨by decide, outside_queries_fall_back.2 id c4grid [-7] (Or.inl (by decide))⟩⟩

/-! ## Claim C1: regular-grid interpolation at an exact grid vertex -/

/-- The fully populated `[1,2,3] × [10,20,30]` grid of the spec's scenario:
template ids `3*i + j`, stored one-sample spectra `[10 + id]`. -/
def c1grid : GridInterp :=
  ⟨[[1, 2, 3], [10, 20, 30]],
    fun t =>
      if t = [0, 0] then 0 else if t = [0, 1] then 1 else if t = [0, 2] then 2
      else if t = [1, 0] then 3 else if t = [1, 1] then 4 else if t = [1, 2] then 5
      else if t = [2, 0] then 6 else if t = [2, 1] then 7 else if t = [2, 2] then 8
      else -1,
    [[10], [11], [12], [13], [14], [15], [16], [17], [18]], false⟩

/-- C1 (counterexample): `p = (3,30)` coincides with a grid vertex whose
template is present (`idgrid[2,2] = 8`, spectrum `[18]`), yet
`GridInterp.__call__` returns the flat unit fallback `[1]`: `np.digitize`
puts an upper-boundary vertex at bin position `lens - 1`, which the
out-of-bounds test rejects. -/
theorem gridInterp_vertex_claim_false :
    c1grid.call id [3, 30] = [1] ∧
    c1grid.idgrid [2, 2] = 8 ∧
    c1grid.call id [3, 30] ≠ c1grid.dats.getD (c1grid.idgrid [2, 2]).toNat [] := by
  refine ⟨by decide, by decide, by decide⟩

/-- `getD` through an integer-cast map. -/
theorem getD_map_intCast (k : List ℕ) {i : ℕ} (h : i < k.length) :
    (intsOf k).getD i 0 = (k.getD i 0 : ℤ) := by
  have h' : i < (intsOf k).length := by
    rw [intsOf, List.length_map]; exact h
  rw [List.getD_eq_getElem _ _ h', List.getD_eq_getElem _ _ h]
  simp [intsOf]

/-- `getD` through the per-dimension length map. -/
theorem getD_map_length (u : List (List ℚ)) {i : ℕ} (h : i < u.length) :
    (u.map List.length).getD i 0 = (u.getD i []).length := by
  have h' : i < (u.map List.length).length := by
    rw [List.length_map]; exact h
  rw [List.getD_eq_getElem _ _ h', List.getD_eq_getElem _ _ h, List.getElem_map]

/-- Adding the all-zeros corner offset to a bin position is the identity. -/
theorem zipWith_replicate_zero_add (l : List ℤ) :
    List.zipWith (fun (a : ℕ) (b : ℤ) => (a : ℤ) + b) (List.replicate l.length 0) l = l := by
  induction l with
  | nil => rfl
  | cons b t ih => simpa [List.replicate_succ] using ih

/-- With all fractional offsets zero, the corner weight is 1 at the
all-zeros corner and 0 at every other 0/1 corner. -/
theorem binWeight_delta (e : List ℕ) (n : ℕ) (hlen : e.length = n)
    (hbits : ∀ b ∈ e, b = 0 ∨ b = 1) :
    binWeight (List.replicate n 0) e = if e = List.replicate n 0 then 1 else 0 := by
  induction e generalizing n with
  | nil =>
    subst hlen
    simp [binWeight]
  | cons b t ih =>
    subst hlen
    have hrep : List.replicate (b :: t).length (0 : ℕ) = 0 :: List.replicate t.length 0 := by
      rw [List.length_cons, List.replicate_succ]
    have hrepQ : List.replicate (b :: t).length (0 : ℚ) = 0 :: List.replicate t.length 0 := by
      rw [List.length_cons, List.replicate_succ]
    rw [hrepQ, hrep, binWeight_cons]
    rcases hbits b (List.mem_cons_self b t) with rfl | rfl
    · rw [ih t.length rfl fun x hx => hbits x (List.mem_cons_of_mem _ hx)]
      by_cases hc : t = List.replicate t.length 0
      · rw [if_pos hc, if_pos (congrArg (fun l => 0 :: l) hc)]
        norm_num
      · rw [if_neg hc, if_neg (by simp only [List.cons.injEq, true_and]; exact hc)]
        norm_num
    · rw [if_neg (by simp)]
      norm_num

/-- A weighted sum of spectrum rows with all weights zero vanishes
entrywise. -/
theorem sum_zip_zero_left (ws : List ℚ) (rs : List (List ℚ)) (j : ℕ)
    (h : ∀ w ∈ ws, w = 0) :
    ((ws.zip rs).map fun wr => wr.1 * wr.2.getD j 0).sum = 0 := by
  refine List.sum_eq_zero ?_
  intro x hx
  rw [List.mem_map] at hx
  obtain ⟨wr, hwr, rfl⟩ := hx
  rcases wr with ⟨w, r⟩
  have hw : w ∈ ws := (List.mem_zip hwr).1
  simp [h w hw]

/-- C1 (amended): querying a regular-grid interpolator at an exact grid
vertex returns that vertex's stored spectrum (elementwise exponentiated
when the `exp` flag is set), provided the vertex is strictly below the
upper grid boundary in every dimension and every corner of its containing
hypercube bin holds a present template; the multilinear weight is then 1
at that corner and 0 at every other corner. -/
theorem gridInterp_vertex_exact (expf : ℚ → ℚ) (g : GridInterp) (p : List ℚ) (k : List ℕ)
    (hplen : p.length = g.ndim)
    (hklen : k.length = g.ndim)
    (hsort : ∀ d < g.ndim, List.Sorted (· < ·) (g.uvecs.getD d []))
    (hvert : ∀ d < g.ndim, p.getD d 0 = (g.uvecs.getD d []).getD (k.getD d 0) 0)
    (hupper : ∀ d < g.ndim, k.getD d 0 + 1 < (g.uvecs.getD d []).length)
    (hcorners : ∀ e ∈ edges g.ndim,
      0 ≤ g.idgrid (List.zipWith (fun (a : ℕ) (b : ℤ) => (a : ℤ) + b) e (intsOf k)))
    (hrows : ∀ e ∈ edges g.ndim,
      (g.dats.getD (g.idgrid
        (List.zipWith (fun (a : ℕ) (b : ℤ) => (a : ℤ) + b) e (intsOf k))).toNat []).length
        = g.specLen) :
    g.call expf p =
      if g.exp then (g.dats.getD (g.idgrid (intsOf k)).toNat []).map expf
      else g.dats.getD (g.idgrid (intsOf k)).toNat [] := by
  -- the bin position of the query is exactly the vertex index
  have hpos : g.binpos p = intsOf k := by
    unfold GridInterp.binpos binposOf
    have hcong : ∀ d ∈ List.range g.uvecs.length,
        digitize (p.getD d 0) (g.uvecs.getD d []) - 1 = ((k.getD d 0 : ℕ) : ℤ) := by
      intro d hd
      rw [List.mem_range] at hd
      rw [hvert d hd]
      rw [digitize_at_vertex _ _ (hsort d hd) (Nat.lt_of_succ_lt (hupper d hd))]
      omega
    calc (List.range g.uvecs.length).map
          (fun d => digitize (p.getD d 0) (g.uvecs.getD d []) - 1)
        = (List.range g.uvecs.length).map (fun d => ((k.getD d 0 : ℕ) : ℤ)) :=
          List.map_congr_left hcong
      _ = intsOf k := by
          have huv : g.uvecs.length = k.length := hklen.symm
          rw [huv, intsOf,
            show (fun d => ((k.getD d 0 : ℕ) : ℤ))
              = ((fun a : ℕ => (a : ℤ)) ∘ fun d => k.getD d 0) from rfl,
            ← List.map_map, list_eq_range_map]
  -- the out-of-bounds test fails
  have hoob : g.outOfBox p = false := by
    unfold GridInterp.outOfBox
    rw [List.any_eq_false]
    intro i hi
    rw [List.mem_range] at hi
    rw [hpos]
    have hki : i < k.length := by rw [hklen]; exact hi
    rw [getD_map_intCast k hki]
    rw [show g.lens = g.uvecs.map List.length from rfl, getD_map_length g.uvecs hi]
    have h1 := hupper i hi
    simp only [Bool.or_eq_true, decide_eq_true_eq]
    omega
  -- every fractional offset is zero
  have hco : g.coeffs p = List.replicate g.ndim (0 : ℚ) := by
    unfold GridInterp.coeffs
    have hcong : ∀ d ∈ List.range g.ndim,
        (fun i =>
          let u := g.uvecs.getD i []
          let kk := ((g.binpos p).getD i 0).toNat
          (p.getD i 0 - u.getD kk 0) / (u.getD (kk + 1) 0 - u.getD kk 0)) d = (0 : ℚ) := by
      intro d hd
      rw [List.mem_range] at hd
      have hkd : d < k.length := by rw [hklen]; exact hd
      simp only [hpos, getD_map_intCast k hkd, Int.toNat_natCast]
      rw [hvert d hd, sub_self, zero_div]
    rw [List.map_congr_left hcong, List.map_const', List.length_range]
  -- every required corner template is present
  have hpos2 : ∀ v ∈ g.pos2 p, 0 ≤ v := by
    unfold GridInterp.pos2
    rw [hpos]
    intro v hv
    rw [List.mem_map] at hv
    obtain ⟨e, he, rfl⟩ := hv
    exact hcorners e he
  have hany : ((g.pos2 p).any fun v => decide (v < 0)) = false := by
    rw [List.any_eq_false]
    intro v hv
    simp [hpos2 v hv, not_lt]
  -- the corner index of the all-zeros corner is the vertex index itself
  have hilen : (intsOf k).length = g.ndim := by rw [intsOf, List.length_map, hklen]
  have hrow0 : List.zipWith (fun (a : ℕ) (b : ℤ) => (a : ℤ) + b)
      (List.replicate g.ndim 0) (intsOf k) = intsOf k := by
    rw [← hilen]
    exact zipWith_replicate_zero_add (intsOf k)
  obtain ⟨es, hes, hne⟩ := edges_zero_head g.ndim
  have hmem0 : List.replicate g.ndim 0 ∈ edges g.ndim := by
    rw [hes]; exact List.mem_cons_self _ _
  have htlen : (g.dats.getD (g.idgrid (intsOf k)).toNat []).length = g.specLen := by
    have h0 := hrows (List.replicate g.ndim 0) hmem0
    rw [hrow0] at h0
    exact h0
  have hw1 : binWeight (g.coeffs p) (List.replicate g.ndim 0) = 1 := by
    rw [hco, binWeight_delta _ g.ndim (List.length_replicate _ _)
      (fun b hb => Or.inl (List.eq_of_mem_replicate hb)), if_pos rfl]
  have hwz : ∀ w ∈ es.map (binWeight (g.coeffs p)), w = 0 := by
    intro w hw
    rw [List.mem_map] at hw
    obtain ⟨e, he, rfl⟩ := hw
    have hee : e ∈ edges g.ndim := by rw [hes]; exact List.mem_cons_of_mem _ he
    obtain ⟨hl, hb⟩ := edges_mem_facts hee
    rw [hco, binWeight_delta e g.ndim hl hb, if_neg (hne e he)]
  -- the weighted sum collapses to the vertex row
  have hsum : ∀ j : ℕ,
      ((((edges g.ndim).map (binWeight (g.coeffs p))).zip
        ((g.pos2 p).map fun v => g.dats.getD v.toNat [])).map
          fun wr => wr.1 * wr.2.getD j 0).sum
        = (g.dats.getD (g.idgrid (intsOf k)).toNat []).getD j 0 := by
    intro j
    unfold GridInterp.pos2
    rw [hpos, hes]
    simp only [List.map_cons, List.zip_cons_cons, List.sum_cons]
    rw [hw1, hrow0, one_mul]
    rw [sum_zip_zero_left _ _ j hwz, add_zero]
  -- assemble the branches of __call__
  simp only [GridInterp.call, hoob, Bool.false_eq_true, if_false, hany]
  have hmap : (List.range g.specLen).map (fun j =>
      ((((edges g.ndim).map (binWeight (g.coeffs p))).zip
        ((g.pos2 p).map fun v => g.dats.getD v.toNat [])).map
          fun wr => wr.1 * wr.2.getD j 0).sum)
      = g.dats.getD (g.idgrid (intsOf k)).toNat [] := by
    calc (List.range g.specLen).map (fun j =>
        ((((edges g.ndim).map (binWeight (g.coeffs p))).zip
          ((g.pos2 p).map fun v => g.dats.getD v.toNat [])).map
            fun wr => wr.1 * wr.2.getD j 0).sum)
        = (List.range g.specLen).map
            (fun j => (g.dats.getD (g.idgrid (intsOf k)).toNat []).getD j 0) :=
          List.map_congr_left (fun j _ => hsum j)
      _ = (List.range (g.dats.getD (g.idgrid (intsOf k)).toNat []).length).map
            (fun j => (g.dats.getD (g.idgrid (intsOf k)).toNat []).getD j 0) := by
          rw [htlen]
      _ = g.dats.getD (g.idgrid (intsOf k)).toNat [] := list_eq_range_map _ _
  rw [hmap]

theorem gridInterp_vertex_exact_witness :
    (([(2 : ℚ), 20].length = c1grid.ndim) ∧ (([1, 1] : List ℕ).length = c1grid.ndim) ∧
      (∀ d < c1grid.ndim, List.Sorted (· < ·) (c1grid.uvecs.getD d [])) ∧
      (∀ d < c1grid.ndim, [(2 : ℚ), 20].getD d 0
        = (c1grid.uvecs.getD d []).getD (([1, 1] : List ℕ).getD d 0) 0) ∧
      (∀ d < c1grid.ndim, ([1, 1] : List ℕ).getD d 0 + 1 < (c1grid.uvecs.getD d []).length) ∧
      (∀ e ∈ edges c1grid.ndim,
        0 ≤ c1grid.idgrid
          (List.zipWith (fun (a : ℕ) (b : ℤ) => (a : ℤ) + b) e (intsOf [1, 1]))) ∧
      (∀ e ∈ edges c1grid.ndim,
        (c1grid.dats.getD (c1grid.idgrid (List.zipWith
          (fun (a : ℕ) (b : ℤ) => (a : ℤ) + b) e (intsOf [1, 1]))).toNat []).length
          = c1grid.specLen)) ∧
    c1grid.call id [2, 20] =
      if c1grid.exp then (c1grid.dats.getD (c1grid.idgrid (intsOf [1, 1])).toNat []).map id
      else c1grid.dats.getD (c1grid.idgrid (intsOf [1, 1])).toNat [] :=
  ⟨⟨by decide, by decide, by decide, by decide, by decide, by decide, by decide⟩,
    gridInterp_vertex_exact id c1grid [2, 20] [1, 1] (by decide) (by decide) (by decide)
      (by decide) (by decide) (by decide) (by decide)⟩

/-! ## interp_masker (`make_ccf.py`, lines 282–321) -/

/-- `xgood = np.nonzero(~badmask)[0]`: indices of the good pixels, in
increasing order. -/
def goodIdx (badmask : List Bool) : List ℕ :=
  (List.range badmask.length).filter fun i => !(badmask.getD i false)

/-- The value `interp_masker` writes at a bad pixel `i`: the nearest good
value beyond the first/last good pixel, and otherwise the linear
interpolation `(-(l1-l0)*s2 + (l2-l0)*s1)/(l2-l1)` between the bracketing
good pixels (`xpos = np.searchsorted(xgood, i)`).  In the all-masked
branch the source returns the copied values with non-finite entries
floored to 1; over exact rationals every value is finite, so the copied
value is kept. -/
def fillValue (lam spec : List ℚ) (badmask : List Bool) (i : ℕ) : ℚ :=
  let xgood := goodIdx badmask
  if xgood = [] then spec.getD i 0
  else
    let xpos := (xgood.filter fun j => j < i).length
    if xpos = 0 then spec.getD (xgood.getD 0 0) 0
    else if xpos = xgood.length then spec.getD (xgood.getD (xgood.length - 1) 0) 0
    else
      let l1 := lam.getD (xgood.getD (xpos - 1) 0) 0
      let l2 := lam.getD (xgood.getD xpos 0) 0
      let s1 := spec.getD (xgood.getD (xpos - 1) 0) 0
      let s2 := spec.getD (xgood.getD xpos 0) 0
      let l0 := lam.getD i 0
      (-(l1 - l0) * s2 + (l2 - l0) * s1) / (l2 - l1)

/-- `interp_masker(lam, spec, badmask)`: good pixels keep their value
(the returned array starts as the copy `spec1 = spec * 1`), bad pixels
receive `fillValue`. -/
def interp_masker (lam spec : List ℚ) (badmask : List Bool) : List ℚ :=
  (List.range spec.length).map fun i =>
    if badmask.getD i false then fillValue lam spec badmask i else spec.getD i 0

/-- C7: with an all-`False` bad-pixel mask, `interp_masker` returns the
input spectrum exactly, element for element. -/
theorem interp_masker_no_bad_identity (lam spec : List ℚ) (badmask : List Bool)
    (h : ∀ b ∈ badmask, b = false) :
    interp_masker lam spec badmask = spec := by
  unfold interp_masker
  have hcong : ∀ i ∈ List.range spec.length,
      (if badmask.getD i false then fillValue lam spec badmask i else spec.getD i 0)
        = spec.getD i 0 := by
    intro i _
    have hb : badmask.getD i false = false := by
      by_cases hi : i < badmask.length
      · exact h _ (by
          rw [List.getD_eq_getElem _ _ hi]
          exact List.getElem_mem _)
      · rw [List.getD_eq_default _ _ (le_of_not_lt hi)]
    rw [hb]
    simp
  rw [List.map_congr_left hcong, list_eq_range_map]

theorem interp_masker_no_bad_identity_witness :
    (∀ b ∈ [false, false, false], b = false) ∧
    interp_masker [1, 2, 3] [4, 5, 6] [false, false, false] = [4, 5, 6] :=
  ⟨by decide,
    interp_masker_no_bad_identity [1, 2, 3] [4, 5, 6] [false, false, false] (by decide)⟩

/-! ## Frame effect of interp_masker (claim C10): explicit buffer store -/

/-- A tiny store of numpy array buffers, indexed by allocation order. -/
structure NpHeap where
  bufs : List (List ℚ)

def NpHeap.read (s : NpHeap) (b : ℕ) : List ℚ := s.bufs.getD b []

/-- Allocating appends a fresh buffer and returns its id. -/
def NpHeap.alloc (s : NpHeap) (v : List ℚ) : NpHeap × ℕ :=
  (⟨s.bufs ++ [v]⟩, s.bufs.length)

/-- An in-place element write `buf[i] = v` into buffer `b`. -/
def NpHeap.write (s : NpHeap) (b : ℕ) (i : ℕ) (v : ℚ) : NpHeap :=
  ⟨s.bufs.set b ((s.bufs.getD b []).set i v)⟩

theorem NpHeap.read_write_ne (s : NpHeap) (b c i : ℕ) (v : ℚ) (h : c ≠ b) :
    (s.write b i v).read c = s.read c := by
  unfold NpHeap.write NpHeap.read
  by_cases hc : c < s.bufs.length
  · rw [List.getD_eq_getElem _ _ (by rw [List.length_set]; exact hc),
      List.getD_eq_getElem _ _ hc]
    exact List.getElem_set_ne (fun hbc => h hbc.symm) _
  · rw [List.getD_eq_default _ _ (by rw [List.length_set]; exact le_of_not_lt hc),
      List.getD_eq_default _ _ (le_of_not_lt hc)]

theorem NpHeap.read_foldl_write_ne (l : List ℕ) (f : ℕ → ℚ) (s : NpHeap) (b c : ℕ)
    (h : c ≠ b) :
    (l.foldl (fun st i => st.write b i (f i)) s).read c = s.read c := by
  induction l generalizing s with
  | nil => rfl
  | cons i t ih => rw [List.foldl_cons, ih, NpHeap.read_write_ne _ _ _ _ _ h]

/-- `interp_masker` as a store program: `spec1 = spec * 1` allocates a
fresh buffer holding the copy, and every subsequent masked fancy-index
assignment (`spec1[xbad[...]] = …`, and `ret[~isfinite] = 1` in the
all-masked branch) writes into that fresh buffer only, with the values of
`fillValue`.  The input buffer `specId` is only read. -/
def interp_masker_prog (lam : List ℚ) (badmask : List Bool) (s0 : NpHeap) (specId : ℕ) :
    NpHeap × ℕ :=
  let spec := s0.read specId
  let a := s0.alloc (spec.map fun v => v * 1)
  let xbad := (List.range badmask.length).filter fun i => badmask.getD i false
  let s2 := xbad.foldl (fun st i => st.write a.2 i (fillValue lam spec badmask i)) a.1
  (s2, a.2)

/-- C10: `interp_masker` never modifies its input array — the final store
still holds the original spectrum at `specId`, and the returned buffer is
a fresh one. -/
theorem interp_masker_preserves_input (lam : List ℚ) (badmask : List Bool)
    (s0 : NpHeap) (specId : ℕ) (h : specId < s0.bufs.length) :
    ((interp_masker_prog lam badmask s0 specId).1).read specId = s0.read specId ∧
    (interp_masker_prog lam badmask s0 specId).2 ≠ specId := by
  have hne : specId ≠ s0.bufs.length := ne_of_lt h
  constructor
  · simp only [interp_masker_prog, NpHeap.alloc]
    rw [NpHeap.read_foldl_write_ne _ _ _ _ _ hne]
    simp only [NpHeap.read]
    exact List.getD_append _ _ _ _ h
  · simp only [interp_masker_prog, NpHeap.alloc]
    exact hne.symm

def c10heap : NpHeap := ⟨[[1, 2], [9]]⟩

theorem interp_masker_preserves_input_witness :
    (0 < c10heap.bufs.length) ∧
    ((interp_masker_prog [1, 2] [true, false] c10heap 0).1).read 0 = c10heap.read 0 ∧
    (interp_masker_prog [1, 2] [true, false] c10heap 0).2 ≠ 0 :=
  ⟨by decide,
    (interp_masker_preserves_input [1, 2] [true, false] c10heap 0 (by decide)).1,
    (interp_masker_preserves_input [1, 2] [true, false] c10heap 0 (by decide)).2⟩

/-! ## apodize (`make_ccf.py`, lines 122–139) -/

/-- The apodization mask value at index `i` for a spectrum of length
`lspec` (`frac = 0.15`).  The right-edge assignment
`(x - lspec + 1) > -frac*lspec` is applied after the left-edge one, so it
wins where both conditions hold; index comparisons are exact rational
arithmetic, the raised-cosine values live in `ℝ` via `Real.cos`. -/
noncomputable def apodMask (lspec : ℕ) (i : ℕ) : ℝ :=
  if (i : ℚ) - lspec + 1 > -(0.15 : ℚ) * lspec then
    (1 - Real.cos (((lspec : ℝ) - i - 1) / 0.15 / lspec * Real.pi)) * 0.5
  else if (i : ℚ) < (0.15 : ℚ) * lspec then
    (1 - Real.cos ((i : ℝ) / 0.15 / lspec * Real.pi)) * 0.5
  else 1

/-- `apodize(spec) = mask * spec`. -/
noncomputable def apodize (spec : List ℝ) : List ℝ :=
  (List.range spec.length).map fun i => apodMask spec.length i * spec.getD i 0

/-- C9: `apodize` preserves the vector length and maps the first and last
samples to exactly zero (the taper weight vanishes at both endpoints). -/
theorem apodize_endpoints (spec : List ℝ) (h : spec ≠ []) :
    (apodize spec).length = spec.length ∧
    (apodize spec).getD 0 0 = 0 ∧
    (apodize spec).getD (spec.length - 1) 0 = 0 := by
  have h0lt : 0 < spec.length := List.length_pos.mpr h
  have hlen : (apodize spec).length = spec.length := by
    unfold apodize
    rw [List.length_map, List.length_range]
  have hmask0 : apodMask spec.length 0 = 0 := by
    unfold apodMask
    rcases Nat.lt_or_ge spec.length 2 with h2 | h2
    · have hL1 : spec.length = 1 := by omega
      rw [hL1, if_pos (by norm_num)]
      have harg : (((1 : ℕ) : ℝ) - ((0 : ℕ) : ℝ) - 1) / 0.15 / ((1 : ℕ) : ℝ) * Real.pi = 0 := by
        push_cast
        ring
      rw [harg, Real.cos_zero]
      ring
    · have hQ : (2 : ℚ) ≤ (spec.length : ℚ) := by exact_mod_cast h2
      rw [if_neg (by push_cast; nlinarith), if_pos (by push_cast; nlinarith)]
      have harg : (((0 : ℕ) : ℝ)) / 0.15 / ((spec.length : ℕ) : ℝ) * Real.pi = 0 := by
        push_cast
        ring
      rw [harg, Real.cos_zero]
      ring
  have hmaskL : apodMask spec.length (spec.length - 1) = 0 := by
    unfold apodMask
    have hQ : (1 : ℚ) ≤ (spec.length : ℚ) := by exact_mod_cast h0lt
    rw [if_pos ?hcond]
    case hcond =>
      push_cast [Nat.cast_sub (by omega : 1 ≤ spec.length)]
      nlinarith
    have harg : ((spec.length : ℝ) - ((spec.length - 1 : ℕ) : ℝ) - 1)
        / 0.15 / (spec.length : ℝ) * Real.pi = 0 := by
      push_cast [Nat.cast_sub (by omega : 1 ≤ spec.length)]
      ring
    rw [harg, Real.cos_zero]
    ring
  refine ⟨hlen, ?_, ?_⟩
  · unfold apodize
    rw [getD_range_map _ h0lt, hmask0, zero_mul]
  · unfold apodize
    rw [getD_range_map _ (by omega), hmaskL, zero_mul]

theorem apodize_endpoints_witness :
    (([(5 : ℝ), 7] : List ℝ) ≠ []) ∧
    ((apodize [(5 : ℝ), 7]).length = ([(5 : ℝ), 7] : List ℝ).length ∧
      (apodize [(5 : ℝ), 7]).getD 0 0 = 0 ∧
      (apodize [(5 : ℝ), 7]).getD (([(5 : ℝ), 7] : List ℝ).length - 1) 0 = 0) :=
  ⟨by simp, apodize_endpoints [(5 : ℝ), 7] (by simp)⟩

/-! ## CCFConfig (`make_ccf.py`, lines 22–54) -/

/-- Cross-correlation configuration record. -/
structure CCFConfig where
  logl0 : ℝ
  logl1 : ℝ
  npoints : ℕ
  maxcontpts : ℕ
  splinestep : ℝ

/-- `CCFConfig.__init__`: the stored `splinestep` is
`max(splinestep, 3e5 * (np.exp((logl1 - logl0)/maxcontpts) - 1))`. -/
noncomputable def CCFConfig.make (logl0 logl1 : ℝ) (npoints : ℕ) (splinestep : ℝ)
    (maxcontpts : ℕ) : CCFConfig :=
  ⟨logl0, logl1, npoints, maxcontpts,
    max splinestep (3e5 * (Real.exp ((logl1 - logl0) / (maxcontpts : ℝ)) - 1))⟩

/-- C6: for every constructed `CCFConfig`, the stored `splinestep` is at
least `3e5 * (exp((logl1-logl0)/maxcontpts) - 1)`, so at most
`maxcontpts` continuum nodes fit in the range. -/
theorem ccfconfig_splinestep_floor (logl0 logl1 splinestep : ℝ)
    (npoints maxcontpts : ℕ) (h : logl0 < logl1) :
    (CCFConfig.make logl0 logl1 npoints splinestep maxcontpts).splinestep
      ≥ 3e5 * (Real.exp ((logl1 - logl0) / (maxcontpts : ℝ)) - 1) :=
  le_max_right _ _

theorem ccfconfig_splinestep_floor_witness :
    ((0 : ℝ) < 1) ∧
    (CCFConfig.make 0 1 2048 1000 20).splinestep
      ≥ 3e5 * (Real.exp ((1 - (0 : ℝ)) / ((20 : ℕ) : ℝ)) - 1) :=
  ⟨by norm_num, ccfconfig_splinestep_floor 0 1 1000 2048 20 (by norm_num)⟩

/-! ## pad (`make_ccf.py`, lines 142–176) -/

/-- `np.diff`. -/
def diffsR (x : List ℝ) : List ℝ := List.zipWith (fun a b => b - a) x x.tail

/-- `np.allclose(a, b)` against a scalar `b` (`rtol = 1e-5`,
`atol = 1e-8`). -/
def allclose (a : List ℝ) (b : ℝ) : Prop :=
  ∀ v ∈ a, |v - b| ≤ 1e-8 + 1e-5 * |b|

/-- `l1 = int(2**np.ceil(np.log(lspec)/np.log(2)))`: the smallest power of
two at least `lspec`.  The float expression agrees with the exact ceiling
`2 ^ Nat.clog 2 n` for every length below `2^22` (checked exhaustively);
`lspec = 0` yields `int(2.0**-inf) = 0`. -/
def nextPow2Len (n : ℕ) : ℕ := if n = 0 then 0 else 2 ^ Nat.clog 2 n

open Classical in
/-- `pad(x, y)`.  The linear branch returns the zero-padded spectrum and
the linearly extrapolated wavelength axis.  The logarithmic branch of the
source is
`np.concatenate(deltax**(np.arange(-delta1, 0) * x[0], x, x[-1] * deltax**(1 + np.arange(delta2))))`,
which applies `**` to a 3-tuple and raises a `TypeError` (and uses the
sample difference `deltax`, not the sample ratio, as the geometric base);
any other spacing raises the explicit `Exception`.  `x[1]` on a
wavelength vector with fewer than two samples raises an `IndexError`. -/
noncomputable def pad (x y : List ℝ) : Except String (List ℝ × List ℝ) :=
  let lspec := y.length
  let l1 := nextPow2Len lspec
  let delta1 := (l1 - lspec) / 2
  let delta2 := (l1 - lspec) - delta1
  let y2 := List.replicate delta1 (0 : ℝ) ++ y ++ List.replicate delta2 0
  if x.length < 2 then Except.error ("IndexError")
  else
    let deltax := x.getD 1 0 - x.getD 0 0
    if allclose (diffsR x) deltax then
      Except.ok
        ((List.range delta1).map (fun j : ℕ => ((j : ℝ) - delta1) * deltax + x.getD 0 0) ++ x ++
          (List.range delta2).map
            (fun j : ℕ => x.getD (x.length - 1) 0 + deltax * (1 + (j : ℝ))),
          y2)
    else if allclose (diffsR (x.map Real.log)) (Real.log (x.getD 1 0 / x.getD 0 0)) then
      Except.error ("TypeError")
    else
      Except.error ("the wavelength axis is neither logarithmic, nor linear")

/-- C3 (code bug): on the exactly log-spaced wavelength vector `[1,2,4]`
(constant ratio 2) with spectrum `[1,1,1]`, `pad` does not return a
log-consistent padded axis — the logarithmic branch raises. -/
theorem pad_log_branch_raises :
    pad [(1 : ℝ), 2, 4] [1, 1, 1] = Except.error ("TypeError") ∧
    (2 : ℝ) / 1 = 4 / 2 := by
  refine ⟨?_, by norm_num⟩
  have hd1 : [(1 : ℝ), 2, 4].getD 1 0 = 2 := rfl
  have hd0 : [(1 : ℝ), 2, 4].getD 0 0 = 1 := rfl
  have hdiffs : diffsR [(1 : ℝ), 2, 4] = [2 - 1, 4 - 2] := by
    unfold diffsR
    rfl
  have hlog4 : Real.log 4 = Real.log 2 + Real.log 2 := by
    rw [show (4 : ℝ) = 2 * 2 by norm_num, Real.log_mul two_ne_zero two_ne_zero]
  have hlogdiffs : diffsR ([(1 : ℝ), 2, 4].map Real.log) = [Real.log 2, Real.log 2] := by
    unfold diffsR
    simp only [List.map_cons, List.map_nil, List.tail_cons, List.zipWith_cons_cons,
      List.zipWith_nil_right]
    rw [Real.log_one, hlog4]
    norm_num
  have hnl : ¬ allclose (diffsR [(1 : ℝ), 2, 4])
      ([(1 : ℝ), 2, 4].getD 1 0 - [(1 : ℝ), 2, 4].getD 0 0) := by
    rw [hdiffs, hd1, hd0]
    intro hall
    have h2 := hall (4 - 2) (by simp)
    rw [show ((4 : ℝ) - 2) - (2 - 1) = 1 by norm_num] at h2
    rw [show |(1 : ℝ)| = 1 by norm_num, show ((2 : ℝ) - 1) = 1 by norm_num] at h2
    norm_num at h2
  have hlg : allclose (diffsR ([(1 : ℝ), 2, 4].map Real.log))
      (Real.log ([(1 : ℝ), 2, 4].getD 1 0 / [(1 : ℝ), 2, 4].getD 0 0)) := by
    rw [hlogdiffs, hd1, hd0, show (2 : ℝ) / 1 = 2 by norm_num]
    intro v hv
    have hv0 : v - Real.log 2 = 0 := by
      rcases List.mem_cons.mp hv with rfl | hv'
      · ring
      · rcases List.mem_cons.mp hv' with rfl | hv''
        · ring
        · simp at hv''
    rw [hv0, abs_zero]
    positivity
  simp only [pad]
  rw [if_neg (by simp), if_neg hnl, if_pos hlg]

theorem nextPow2Len_spec (n : ℕ) (hn : 1 ≤ n) :
    n ≤ nextPow2Len n ∧ (∃ m, nextPow2Len n = 2 ^ m) ∧
    ∀ m, n ≤ 2 ^ m → nextPow2Len n ≤ 2 ^ m := by
  unfold nextPow2Len
  rw [if_neg (by omega)]
  refine ⟨Nat.le_pow_clog one_lt_two n, ⟨_, rfl⟩, ?_⟩
  intro m hm
  exact Nat.pow_le_pow_right (by norm_num) ((Nat.le_pow_iff_clog_le one_lt_two).mp hm)

/-- If all consecutive differences are exactly `d`, every entry of
`np.diff` is `d`. -/
theorem diffsR_mem_eq (x : List ℝ) (d : ℝ)
    (hd : ∀ i, i + 1 < x.length → x.getD (i + 1) 0 - x.getD i 0 = d) :
    ∀ v ∈ diffsR x, v = d := by
  intro v hv
  unfold diffsR at hv
  obtain ⟨i, hi, hval⟩ := List.mem_iff_getElem.mp hv
  have hitail : i < x.tail.length := by
    rw [List.length_zipWith, lt_min_iff] at hi
    exact hi.2
  have h1 : i + 1 < x.length := by
    have := List.length_tail x
    omega
  rw [List.getElem_zipWith, List.getElem_tail x i hitail] at hval
  have hgd := hd i h1
  rw [List.getD_eq_getElem _ _ h1,
    List.getD_eq_getElem _ _ (by omega : i < x.length)] at hgd
  rw [← hval]
  exact hgd

/-- An exactly linearly spaced vector is an arithmetic progression. -/
theorem ap_getD (x : List ℝ) (d : ℝ)
    (hd : ∀ i, i + 1 < x.length → x.getD (i + 1) 0 - x.getD i 0 = d) :
    ∀ i, i < x.length → x.getD i 0 = x.getD 0 0 + i * d := by
  intro i
  induction i with
  | zero =>
    intro _
    simp
  | succ j ih =>
    intro hj
    have hstep := hd j hj
    have hih := ih (by omega)
    have hj1 : x.getD (j + 1) 0 = x.getD j 0 + d := by linarith
    rw [hj1, hih]
    push_cast
    ring

/-- Closed form of the linearly extrapolated wavelength axis built by the
linear branch of `pad`. -/
theorem padded_axis_getD (x : List ℝ) (d : ℝ) (delta1 delta2 : ℕ)
    (h2 : 2 ≤ x.length)
    (hd : ∀ i, i + 1 < x.length → x.getD (i + 1) 0 - x.getD i 0 = d) :
    ∀ i, i < delta1 + x.length + delta2 →
      ((List.range delta1).map (fun j : ℕ => ((j : ℝ) - delta1) * d + x.getD 0 0) ++ x ++
        (List.range delta2).map (fun j : ℕ =>
          x.getD (x.length - 1) 0 + d * (1 + (j : ℝ)))).getD i 0
      = x.getD 0 0 + ((i : ℝ) - delta1) * d := by
  intro i hi
  have hprelen : ((List.range delta1).map
      (fun j : ℕ => ((j : ℝ) - delta1) * d + x.getD 0 0)).length = delta1 := by
    rw [List.length_map, List.length_range]
  rcases Nat.lt_or_ge i delta1 with hcase | hcase
  · have hiplen : i < (((List.range delta1).map
        (fun j : ℕ => ((j : ℝ) - delta1) * d + x.getD 0 0)) ++ x).length := by
      rw [List.length_append, hprelen]
      omega
    rw [List.getD_append _ _ _ _ hiplen, List.getD_append _ _ _ _ (by rw [hprelen]; exact hcase)]
    rw [getD_range_map _ hcase]
    ring
  · rcases Nat.lt_or_ge i (delta1 + x.length) with hcase2 | hcase2
    · have hiplen : i < (((List.range delta1).map
          (fun j : ℕ => ((j : ℝ) - delta1) * d + x.getD 0 0)) ++ x).length := by
        rw [List.length_append, hprelen]
        omega
      rw [List.getD_append _ _ _ _ hiplen,
        List.getD_append_right _ _ _ _ (by rw [hprelen]; exact hcase), hprelen]
      rw [ap_getD x d hd (i - delta1) (by omega), Nat.cast_sub hcase]
    · rw [List.getD_append_right _ _ _ _
        (by rw [List.length_append, hprelen]; omega)]
      rw [show i - (((List.range delta1).map
          (fun j : ℕ => ((j : ℝ) - delta1) * d + x.getD 0 0)) ++ x).length
          = i - delta1 - x.length from by rw [List.length_append, hprelen]; omega]
      rw [getD_range_map _ (by omega : i - delta1 - x.length < delta2)]
      rw [ap_getD x d hd (x.length - 1) (by omega)]
      rw [Nat.cast_sub (by omega : 1 ≤ x.length),
        Nat.cast_sub (by omega : x.length ≤ i - delta1),
        Nat.cast_sub (by omega : delta1 ≤ i)]
      ring

/-- C5: whenever `pad` returns, the padded spectrum length is the smallest
power of two at least the input length; and for an exactly linearly
spaced wavelength vector, `pad` succeeds and the returned wavelength axis
has the same constant spacing throughout. -/
theorem pad_pow2_and_linear (x y : List ℝ) (hlen : x.length = y.length) :
    (∀ x2 y2, pad x y = Except.ok (x2, y2) →
      y.length ≤ y2.length ∧ (∃ m, y2.length = 2 ^ m) ∧
      ∀ m, y.length ≤ 2 ^ m → y2.length ≤ 2 ^ m) ∧
    (∀ d : ℝ, 2 ≤ x.length →
      (∀ i, i + 1 < x.length → x.getD (i + 1) 0 - x.getD i 0 = d) →
      ∃ x2 y2, pad x y = Except.ok (x2, y2) ∧
        ∀ i, i + 1 < x2.length → x2.getD (i + 1) 0 - x2.getD i 0 = d) := by
  constructor
  · intro x2 y2 hok
    simp only [pad] at hok
    split_ifs at hok with h1 h2 h3
    all_goals try exact Except.noConfusion hok
    rw [Except.ok.injEq, Prod.mk.injEq] at hok
    obtain ⟨hx2, hy2⟩ := hok
    have hxlen : 2 ≤ x.length := by omega
    have hn : 1 ≤ y.length := by omega
    obtain ⟨hle, ⟨m, hm⟩, hmin⟩ := nextPow2Len_spec y.length hn
    have hy2len : y2.length = nextPow2Len y.length := by
      rw [← hy2]
      simp only [List.length_append, List.length_replicate]
      omega
    exact ⟨by rw [hy2len]; exact hle, ⟨m, by rw [hy2len, hm]⟩,
      fun m' hm' => by rw [hy2len]; exact hmin m' hm'⟩
  · intro d h2 hd
    have hnotlt : ¬ (x.length < 2) := not_lt.mpr h2
    have hdx : x.getD 1 0 - x.getD 0 0 = d := hd 0 (by omega)
    have hclose : allclose (diffsR x) (x.getD 1 0 - x.getD 0 0) := by
      intro v hv
      rw [diffsR_mem_eq x d hd v hv, hdx, sub_self, abs_zero]
      positivity
    have hpadeq : pad x y = Except.ok
        ((List.range (((nextPow2Len y.length - y.length) / 2 : ℕ))).map
            (fun j : ℕ => ((j : ℝ) - (((nextPow2Len y.length - y.length) / 2 : ℕ) : ℝ))
              * (x.getD 1 0 - x.getD 0 0) + x.getD 0 0) ++ x ++
          (List.range ((nextPow2Len y.length - y.length
              - (nextPow2Len y.length - y.length) / 2 : ℕ))).map
            (fun j : ℕ => x.getD (x.length - 1) 0 + (x.getD 1 0 - x.getD 0 0) * (1 + (j : ℝ))),
          List.replicate (((nextPow2Len y.length - y.length) / 2 : ℕ)) (0 : ℝ) ++ y ++
            List.replicate ((nextPow2Len y.length - y.length
              - (nextPow2Len y.length - y.length) / 2 : ℕ)) 0) := by
      simp only [pad]
      rw [if_neg hnotlt, if_pos hclose]
    refine ⟨_, _, hpadeq, ?_⟩
    simp only [hdx]
    intro i hi
    rw [List.length_append, List.length_append, List.length_map, List.length_range,
      List.length_map, List.length_range] at hi
    rw [padded_axis_getD x d _ _ h2 hd (i + 1) (by omega),
      padded_axis_getD x d _ _ h2 hd i (by omega)]
    push_cast
    ring

theorem pad_pow2_and_linear_witness :
    (([(1 : ℝ), 2, 3] : List ℝ).length = ([(5 : ℝ), 6, 7] : List ℝ).length) ∧
    ((∀ x2 y2, pad [(1 : ℝ), 2, 3] [(5 : ℝ), 6, 7] = Except.ok (x2, y2) →
        ([(5 : ℝ), 6, 7] : List ℝ).length ≤ y2.length ∧ (∃ m, y2.length = 2 ^ m) ∧
        ∀ m, ([(5 : ℝ), 6, 7] : List ℝ).length ≤ 2 ^ m → y2.length ≤ 2 ^ m) ∧
      (∀ d : ℝ, 2 ≤ ([(1 : ℝ), 2, 3] : List ℝ).length →
        (∀ i, i + 1 < ([(1 : ℝ), 2, 3] : List ℝ).length →
          [(1 : ℝ), 2, 3].getD (i + 1) 0 - [(1 : ℝ), 2, 3].getD i 0 = d) →
        ∃ x2 y2, pad [(1 : ℝ), 2, 3] [(5 : ℝ), 6, 7] = Except.ok (x2, y2) ∧
          ∀ i, i + 1 < x2.length → x2.getD (i + 1) 0 - x2.getD i 0 = d)) ∧
    (∃ x2 y2, pad [(1 : ℝ), 2, 3] [(5 : ℝ), 6, 7] = Except.ok (x2, y2) ∧
      ∀ i, i + 1 < x2.length → x2.getD (i + 1) 0 - x2.getD i 0 = 1) :=
  ⟨by simp, pad_pow2_and_linear [(1 : ℝ), 2, 3] [(5 : ℝ), 6, 7] (by simp),
    (pad_pow2_and_linear [(1 : ℝ), 2, 3] [(5 : ℝ), 6, 7] (by simp)).2 1 (by simp)
      (by
        intro i hi
        simp only [List.length_cons, List.length_nil] at hi
        have hi2 : i < 2 := by omega
        interval_cases i <;> norm_num [List.getD])⟩
